import Mathlib

/-!
Verification of the email extraction-and-categorization engine.

The Python sources (src/extractor.py, src/categorizer.py, src/engine.py) are
shallowly embedded below.  Strings are Lean `String`s (lists of characters);
the ASCII fragment of Python's regex/`str.lower` semantics is modelled, which
covers every address class the program manipulates.  Compiled regex patterns
passed to `categorize_by_pattern` and the callables passed to
`categorize_by_custom_rule` are modelled as opaque predicates, exactly as the
code treats them (a predicate that "raises" returns `none`).
-/

set_option maxRecDepth 8000

namespace EmailSpec

/-! ## Character classes of `EMAIL_PATTERN = \b[A-Za-z0-9._%+-]+@[A-Za-z0-9.-]+\.[A-Z|a-z]{2,}\b` -/

/-- ASCII word character (regex `\w`), used by the `\b` anchors. -/
def isWordChar (c : Char) : Bool := c.isAlphanum || c == '_'

/-- Local-part class `[A-Za-z0-9._%+-]`. -/
def isLocalChar (c : Char) : Bool :=
  c.isAlphanum || c == '.' || c == '_' || c == '%' || c == '+' || c == '-'

/-- Domain-run class `[A-Za-z0-9.-]`. -/
def isDomainChar (c : Char) : Bool := c.isAlphanum || c == '.' || c == '-'

/-- Final-run class `[A-Z|a-z]`: the source class literally contains the bar. -/
def isTldChar (c : Char) : Bool := c.isAlpha || c == '|'

/-- Word-ness of an optional character; the edge of the string is non-word. -/
def wordB : Option Char → Bool
  | none => false
  | some c => isWordChar c

/-- Greedy span: longest prefix satisfying `p`, and the rest. -/
def spanB (p : Char → Bool) : List Char → List Char × List Char
  | [] => ([], [])
  | c :: cs =>
    if p c then
      match spanB p cs with
      | (a, b) => (c :: a, b)
    else ([], c :: cs)

/-- Python `str.split(sep)` on a single separator character. -/
def splitOnChar (sep : Char) : List Char → List (List Char)
  | [] => [[]]
  | c :: cs =>
    match splitOnChar sep cs with
    | [] => [[]]
    | h :: t => if c == sep then [] :: h :: t else (c :: h) :: t

/-- Is `a` a leading segment of `b`? -/
def takesLead : List Char → List Char → Bool
  | [], _ => true
  | _ :: _, [] => false
  | a :: as, b :: bs => a == b && takesLead as bs

/-- Python `needle in hay` substring test. -/
def isSubstrB (needle : List Char) : List Char → Bool
  | [] => takesLead needle []
  | c :: t => takesLead needle (c :: t) || isSubstrB needle t

/-- Python `str.lower()` (ASCII fragment). -/
def lowerStr (s : String) : String := ⟨s.data.map Char.toLower⟩

/-- Python `str.endswith(suffix)`. -/
def endsWithStr (s suffix : String) : Bool := takesLead suffix.data.reverse s.data.reverse

/-! ## The regex matcher (`re.findall` / `re.fullmatch` for `EMAIL_PATTERN`) -/

/-- Backtracking for `[A-Z|a-z]{2,}\b`: try the greedy run `tl`, shrinking from
the right until the trailing word boundary holds; `rest` is the text after the
run.  Fuel bounds the number of shrink steps. -/
def tryTldF : Nat → List Char → List Char → Option (List Char × List Char)
  | 0, _, _ => none
  | fuel + 1, tl, rest =>
    if tl.length < 2 then none
    else if isWordChar (tl.getLastD ' ') != wordB rest.head? then some (tl, rest)
    else tryTldF fuel tl.dropLast (tl.getLastD ' ' :: rest)

def tryTld (tl rest : List Char) : Option (List Char × List Char) :=
  tryTldF (tl.length + 1) tl rest

/-- Backtracking for `[A-Za-z0-9.-]+\.` followed by the final run: scan the
reversed domain run for the rightmost usable dot (greedy domain), with `acc`
the part of the run already passed over (in source order) and `rest3` the text
after the whole run.  Returns (domain-part, final-run, remaining text). -/
def goDom : List Char → List Char → List Char → Option (List Char × List Char × List Char)
  | [], _, _ => none
  | c :: rs, acc, rest3 =>
    if c == '.' && !rs.isEmpty then
      match spanB isTldChar (acc ++ rest3) with
      | (tl, rest4) =>
        match tryTld tl rest4 with
        | some (t, rem) => some (rs.reverse, t, rem)
        | none => goDom rs (c :: acc) rest3
    else goDom rs (c :: acc) rest3

/-- One attempt of `EMAIL_PATTERN` anchored at the head of `s`; `prev` is the
character just before `s` (for the leading `\b`).  Returns the matched text and
the rest of the string. -/
def matchAt (prev : Option Char) (s : List Char) : Option (List Char × List Char) :=
  match spanB isLocalChar s with
  | ([], _) => none
  | (l :: loc, rest1) =>
    if (wordB prev != isWordChar l) = false then none
    else
      match rest1 with
      | '@' :: rest2 =>
        match spanB isDomainChar rest2 with
        | (dom, rest3) =>
          match goDom dom.reverse [] rest3 with
          | some (domPart, t, rem) =>
            some ((l :: loc) ++ '@' :: (domPart ++ '.' :: t), rem)
          | none => none
      | _ => none

/-- The `re.findall` scan: at each position try a match; on success continue
after it, otherwise advance one character.  Fuel is the string length. -/
def scanF : Nat → Option Char → List Char → List (List Char)
  | 0, _, _ => []
  | _, _, [] => []
  | fuel + 1, prev, c :: cs =>
    match matchAt prev (c :: cs) with
    | some (m, rest) => m :: scanF fuel (some (m.getLastD ' ')) rest
    | none => scanF fuel (some c) cs

/-- `EMAIL_PATTERN.findall(s)`. -/
def findAllEmails (s : List Char) : List (List Char) := scanF (s.length + 1) none s

/-! ## Extractor (`extractor.py`) -/

/-- Python `set.add`: the session cache as an insertion-ordered set. -/
def setAdd (cache : List String) (e : String) : List String :=
  if e ∈ cache then cache else cache ++ [e]

/-- The dedup loop of `extract_from_text`: `seen`-set membership while building
the output list, adding each new address to the session cache. -/
def dedupCacheAux (seen cache : List String) : List String → List String × List String
  | [] => ([], cache)
  | e :: es =>
    if e ∈ seen then dedupCacheAux seen cache es
    else
      match dedupCacheAux (e :: seen) (setAdd cache e) es with
      | (r, c2) => (e :: r, c2)

/-- The raw match stream of `extract_from_text`: `findall`, then lower-casing
unless the extractor is case sensitive. -/
def matchStream (caseSensitive : Bool) (text : String) : List String :=
  let emails := (findAllEmails text.data).map (fun l => (⟨l⟩ : String))
  if caseSensitive then emails else emails.map lowerStr

/-- `EmailExtractor.extract_from_text`; the second component is the updated
session cache (`_extracted_emails`). -/
def extract_from_text (caseSensitive : Bool) (cache : List String) (text : String) :
    List String × List String :=
  if text = "" then ([], cache)
  else dedupCacheAux [] cache (matchStream caseSensitive text)

/-- `tldOK t`: `t` is a valid final run reaching the end of the string, for
`fullmatch` (length ≥ 2, chars in `[A-Z|a-z]`, trailing `\b` at end of input
means the very last character must be a word character). -/
def tldOK (t : List Char) : Bool :=
  decide (2 ≤ t.length) && t.all isTldChar && isWordChar (t.getLastD ' ')

/-- `tailOK seen rest`: `rest` matches `[A-Za-z0-9.-]*\.[A-Z|a-z]{2,}\b` to the
end of the string, where `seen` records whether at least one domain character
was already consumed (the domain run must be nonempty overall). -/
def tailOK : Bool → List Char → Bool
  | _, [] => false
  | seen, c :: cs => (c == '.' && seen && tldOK cs) || (isDomainChar c && tailOK true cs)

/-- `EmailExtractor.validate_email`: `EMAIL_PATTERN.fullmatch(email)` as a
Boolean.  The leading `\b` forces the first character to be a word character. -/
def validate_email (email : String) : Bool :=
  match spanB isLocalChar email.data with
  | (l :: _, '@' :: rest) => isWordChar l && tailOK false rest
  | _ => false

/-! Spec-side rendering of the pattern the claim states for validation:
`[A-Za-z0-9._%+-]+@[A-Za-z0-9.-]+\.[A-Za-z]{2,}` as a full-string match with
no word-boundary anchors and a plain-letter final class. -/

def tldOKClaim (t : List Char) : Bool := decide (2 ≤ t.length) && t.all Char.isAlpha

def tailOKClaim : Bool → List Char → Bool
  | _, [] => false
  | seen, c :: cs => (c == '.' && seen && tldOKClaim cs) || (isDomainChar c && tailOKClaim true cs)

/-- Full-string match of the claim's pattern (no `\b`, final class `[A-Za-z]`). -/
def claimFullmatch (email : String) : Bool :=
  match spanB isLocalChar email.data with
  | (_ :: _, '@' :: rest) => tailOKClaim false rest
  | _ => false

/-- Declarative reading of `EMAIL_PATTERN.fullmatch`: the string splits into
local part, `'@'`, domain run, `'.'`, and a final run of length ≥ 2 over
`[A-Z|a-z]`; the boundary anchors force the first character to be a word
character and the last to be a letter. -/
def FullSpec (s : String) : Prop :=
  ∃ l d t : List Char,
    s.data = l ++ '@' :: (d ++ '.' :: t) ∧
    l ≠ [] ∧ (∀ c ∈ l, isLocalChar c = true) ∧ isWordChar (l.headD ' ') = true ∧
    d ≠ [] ∧ (∀ c ∈ d, isDomainChar c = true) ∧
    2 ≤ t.length ∧ (∀ c ∈ t, isTldChar c = true) ∧ isWordChar (t.getLastD ' ') = true

/-! ## Categorizer (`categorizer.py`) -/

/-- `EmailCategorizer.FREE_EMAIL_DOMAINS`. -/
def freeList : List String :=
  ["gmail.com", "yahoo.com", "hotmail.com", "outlook.com",
   "aol.com", "icloud.com", "mail.com", "protonmail.com",
   "yandex.com", "zoho.com"]

/-- `EmailCategorizer.BUSINESS_DOMAINS`. -/
def businessList : List String :=
  ["company.com", "corp.com", "enterprise.com", "business.com"]

/-- `EmailCategorizer.EDUCATIONAL_DOMAINS`. -/
def eduList : List String := ["edu", "ac.uk", "edu.au", "edu.cn", "ac.in"]

/-- `EmailCategorizer._extract_domain`: `email.split('@')[1].lower()`, `none`
when there is no `'@'` (the `IndexError` branch). -/
def extractDomain (email : String) : Option String :=
  match splitOnChar '@' email.data with
  | _ :: d :: _ => some (lowerStr ⟨d⟩)
  | _ => none

/-- `any(domain.endswith(e) for e in EDUCATIONAL_DOMAINS)`. -/
def eduAny (d : String) : Bool := eduList.any (fun s => endsWithStr d s)

/-- `EmailCategorizer._is_business_domain`: at least two dot-separated labels
and not a free-provider domain. -/
def isBusinessDomain (d : String) : Bool :=
  decide (2 ≤ (splitOnChar '.' d.data).length) && decide (d ∉ freeList)

/-- The branch chain of one iteration of `categorize_by_type`: the label the
address is appended under. -/
def classifyType (email : String) : String :=
  match extractDomain email with
  | none => "other"
  | some d =>
    if d = "" then "other"
    else if d ∈ freeList then "free"
    else if eduAny d = true then "educational"
    else if endsWithStr d ".gov" = true ∨ d = "gov.uk" ∨ endsWithStr d ".gov.uk" = true then
      "government"
    else if d ∈ businessList ∨ isBusinessDomain d = true then "business"
    else "other"

/-- A category map: insertion-ordered `dict` from label to address list. -/
abbrev CatMap := List (String × List String)

/-- `categories[k].append(v)` on a `defaultdict(list)`: append to the existing
bucket, or create the bucket at the end of the map. -/
def addTo : CatMap → String → String → CatMap
  | [], k, v => [(k, [v])]
  | (k2, l) :: m, k, v =>
    if k2 = k then (k2, l ++ [v]) :: m else (k2, l) :: addTo m k v

/-- Bucket list of a label (empty when absent). -/
def lookupCat : CatMap → String → List String
  | [], _ => []
  | (k2, l) :: m, k => if k2 = k then l else lookupCat m k

/-- Concatenation of all bucket lists, in map order. -/
def catVals : CatMap → List String
  | [] => []
  | (_, l) :: m => l ++ catVals m

def keysOf (m : CatMap) : List String := m.map (fun p => p.1)

/-- The common loop of the single-label strategies: append each address under
the label `pick` assigns it. -/
def bucketAux (pick : String → String) : List String → CatMap → CatMap
  | [], m => m
  | e :: es, m => bucketAux pick es (addTo m (pick e) e)

/-- The initial dict of `categorize_by_type` (lines 62-68), in insertion order. -/
def initTypeMap : CatMap :=
  [("free", []), ("business", []), ("educational", []), ("government", []), ("other", [])]

/-- `EmailCategorizer.categorize_by_type`. -/
def categorize_by_type (emails : List String) : CatMap :=
  bucketAux classifyType emails initTypeMap

/-- One iteration of `categorize_by_keywords`: first category (in dict order)
one of whose keywords is a lower-cased substring of the lower-cased address;
otherwise `uncategorized`. -/
def keywordPick (keywords : List (String × List String)) (email : String) : String :=
  match keywords.find? (fun p => p.2.any (fun kw => isSubstrB (lowerStr kw).data (lowerStr email).data)) with
  | some p => p.1
  | none => "uncategorized"

/-- `EmailCategorizer.categorize_by_keywords`. -/
def categorize_by_keywords (emails : List String) (keywords : List (String × List String)) :
    CatMap :=
  bucketAux (keywordPick keywords) emails []

/-- One iteration of `categorize_by_pattern`; a compiled regex is modelled as
its match-from-start predicate. -/
def patternPick (pats : List (String × (String → Bool))) (email : String) : String :=
  match pats.find? (fun p => p.2 email) with
  | some p => p.1
  | none => "uncategorized"

/-- `EmailCategorizer.categorize_by_pattern`. -/
def categorize_by_pattern (emails : List String) (pats : List (String × (String → Bool))) :
    CatMap :=
  bucketAux (patternPick pats) emails []

/-- One iteration of `categorize_by_custom_rule`: a rule returning `none`
models a predicate that raised (the exception is swallowed and the next rule
is tried). -/
def rulePick (rules : List (String × (String → Option Bool))) (email : String) : String :=
  match rules.find? (fun p => (p.2 email).getD false) with
  | some p => p.1
  | none => "uncategorized"

/-- `EmailCategorizer.categorize_by_custom_rule`. -/
def categorize_by_custom_rule (emails : List String)
    (rules : List (String × (String → Option Bool))) : CatMap :=
  bucketAux (rulePick rules) emails []

/-- Truthiness of `_extract_domain`'s result (`if domain:`): a present,
nonempty domain segment. -/
def domKeep (email : String) : Bool := (extractDomain email).getD "" != ""

/-- The loop of `categorize_by_domain`: addresses with a falsy domain are
skipped. -/
def domainAux : List String → CatMap → CatMap
  | [], m => m
  | e :: es, m =>
    if domKeep e then domainAux es (addTo m ((extractDomain e).getD "") e)
    else domainAux es m

/-- `EmailCategorizer.categorize_by_domain`. -/
def categorize_by_domain (emails : List String) : CatMap := domainAux emails []

/-! ## Engine (`engine.py`) -/

/-- The engine's mutable state: the extractor's flag and session cache, plus
`self.emails` and `self.categorized`. -/
structure EmailEngineState where
  caseSensitive : Bool
  emails : List String
  categorized : CatMap

  cache : List String

/-- The keyword arguments of `EmailEngine.categorize` (`kwargs.get` yields
`none` when absent). -/
structure CatKwargs where
  keywords : Option (List (String × List String)) := none
  patterns : Option (List (String × (String → Bool))) := none
  rules : Option (List (String × (String → Option Bool))) := none

/-- `EmailEngine.categorize`.  A raised `ValueError` is the `error` branch and
leaves the state unchanged (the raise happens before any assignment); note the
`if not keywords` style truthiness tests, under which an empty dict is missing. -/
def engineCategorize (st : EmailEngineState) (method : String) (kw : CatKwargs) :
    Except String CatMap × EmailEngineState :=
  if st.emails = [] then
    (Except.error "No emails to categorize. Run extract() first.", st)
  else if method = "domain" then
    (Except.ok (categorize_by_domain st.emails),
     { st with categorized := categorize_by_domain st.emails })
  else if method = "type" then
    (Except.ok (categorize_by_type st.emails),
     { st with categorized := categorize_by_type st.emails })
  else if method = "keywords" then
    match kw.keywords with
    | none => (Except.error "'keywords' argument required for keywords method", st)
    | some [] => (Except.error "'keywords' argument required for keywords method", st)
    | some (k :: ks) =>
      (Except.ok (categorize_by_keywords st.emails (k :: ks)),
       { st with categorized := categorize_by_keywords st.emails (k :: ks) })
  else if method = "pattern" then
    match kw.patterns with
    | none => (Except.error "'patterns' argument required for pattern method", st)
    | some [] => (Except.error "'patterns' argument required for pattern method", st)
    | some (p :: ps) =>
      (Except.ok (categorize_by_pattern st.emails (p :: ps)),
       { st with categorized := categorize_by_pattern st.emails (p :: ps) })
  else if method = "custom" then
    match kw.rules with
    | none => (Except.error "'rules' argument required for custom method", st)
    | some [] => (Except.error "'rules' argument required for custom method", st)
    | some (r :: rs) =>
      (Except.ok (categorize_by_custom_rule st.emails (r :: rs)),
       { st with categorized := categorize_by_custom_rule st.emails (r :: rs) })
  else
    (Except.error ("Invalid method: " ++ method ++
      ". Must be one of: 'domain', 'type', 'keywords', 'pattern', 'custom'"), st)

/-- `EmailEngine.extract` with `source_type='text'`: replaces `self.emails`
with the extraction result (the file-based source types delegate to file I/O
and are outside this embedding). -/
def engineExtractText (st : EmailEngineState) (source : String) :
    List String × EmailEngineState :=
  let p := extract_from_text st.caseSensitive st.cache source
  (p.1, { st with emails := p.1, cache := p.2 })

/-- `EmailEngine.reset`: clears both state fields and the session cache. -/
def engineReset (st : EmailEngineState) : EmailEngineState :=
  { st with emails := [], categorized := [], cache := [] }

/-- First-occurrence index of `x` (length of the list when absent). -/
def firstIdx (x : String) : List String → Nat
  | [] => 0
  | y :: ys => if y = x then 0 else firstIdx x ys + 1

/-! ## Helper lemmas about the category-map operations -/

theorem catVals_addTo (m : CatMap) (k v : String) :
    List.Perm (catVals (addTo m k v)) (v :: catVals m) := by
  induction m with
  | nil => simp [addTo, catVals]
  | cons p m ih =>
    obtain ⟨k2, l⟩ := p
    by_cases h : k2 = k
    · simp only [addTo, if_pos h, catVals]
      have hre : (l ++ [v]) ++ catVals m = l ++ (v :: catVals m) := by simp
      rw [hre]
      exact List.perm_middle
    · simp only [addTo, if_neg h, catVals]
      exact (ih.append_left l).trans List.perm_middle

theorem bucketAux_perm (pick : String → String) :
    ∀ (es : List String) (m : CatMap),
      List.Perm (catVals (bucketAux pick es m)) (catVals m ++ es) := by
  intro es
  induction es with
  | nil => intro m; simp [bucketAux]
  | cons e es ih =>
    intro m
    have h1 : List.Perm (catVals (bucketAux pick (e :: es) m))
        (catVals (addTo m (pick e) e) ++ es) := ih (addTo m (pick e) e)
    have h2 := (catVals_addTo m (pick e) e).append_right es
    exact (h1.trans h2).trans List.perm_middle.symm

theorem domainAux_perm :
    ∀ (es : List String) (m : CatMap),
      List.Perm (catVals (domainAux es m)) (catVals m ++ es.filter domKeep) := by
  intro es
  induction es with
  | nil => intro m; simp [domainAux]
  | cons e es ih =>
    intro m
    by_cases hk : domKeep e
    · have h1 : List.Perm (catVals (domainAux (e :: es) m))
          (catVals (addTo m ((extractDomain e).getD "") e) ++ es.filter domKeep) := by
        simpa [domainAux, hk] using ih (addTo m ((extractDomain e).getD "") e)
      have h2 := (catVals_addTo m ((extractDomain e).getD "") e).append_right (es.filter domKeep)
      have h3 := (h1.trans h2).trans List.perm_middle.symm
      simpa [List.filter_cons, hk] using h3
    · have h1 : List.Perm (catVals (domainAux (e :: es) m))
          (catVals m ++ es.filter domKeep) := by
        simpa [domainAux, hk] using ih m
      simpa [List.filter_cons, hk] using h1

theorem lookup_addTo_self (m : CatMap) (k v : String) :
    lookupCat (addTo m k v) k = lookupCat m k ++ [v] := by
  induction m with
  | nil => simp [addTo, lookupCat]
  | cons p m ih =>
    obtain ⟨k2, l⟩ := p
    by_cases h : k2 = k
    · simp [addTo, lookupCat, h]
    · simp [addTo, lookupCat, h, ih]

theorem lookup_addTo_other (m : CatMap) (k v k2 : String) (h : k2 ≠ k) :
    lookupCat (addTo m k v) k2 = lookupCat m k2 := by
  induction m with
  | nil => simp [addTo, lookupCat, Ne.symm h]
  | cons p m ih =>
    obtain ⟨k3, l⟩ := p
    by_cases h3 : k3 = k
    · have h32 : k3 ≠ k2 := by rw [h3]; exact Ne.symm h
      simp [addTo, h3, lookupCat, h32, Ne.symm h]
    · by_cases h2 : k3 = k2
      · simp [addTo, lookupCat, h3, h2, h]
      · simp [addTo, lookupCat, h3, h2, ih, h]

theorem bucket_lookup (pick : String → String) :
    ∀ (es : List String) (m : CatMap) (k : String),
      lookupCat (bucketAux pick es m) k
        = lookupCat m k ++ es.filter (fun e => pick e == k) := by
  intro es
  induction es with
  | nil => intro m k; simp [bucketAux]
  | cons e es ih =>
    intro m k
    have h1 : lookupCat (bucketAux pick (e :: es) m) k
        = lookupCat (addTo m (pick e) e) k ++ es.filter (fun e => pick e == k) :=
      ih (addTo m (pick e) e) k
    by_cases hk : pick e = k
    · subst hk
      rw [h1, lookup_addTo_self]
      simp [List.filter_cons]
    · rw [h1, lookup_addTo_other m (pick e) e k (fun hh => hk hh.symm)]
      simp [List.filter_cons, hk]

theorem type_lookup (es : List String) (k : String) (hk : k ∈ keysOf initTypeMap) :
    lookupCat (categorize_by_type es) k = es.filter (fun e => classifyType e == k) := by
  have h := bucket_lookup classifyType es initTypeMap k
  have h0 : lookupCat initTypeMap k = [] := by
    fin_cases hk <;> rfl
  rw [categorize_by_type, h, h0, List.nil_append]

/-! ## Helper lemmas about deduplication -/

theorem pairwiseImpMem {R S : String → String → Prop} :
    ∀ {l : List String}, (∀ a ∈ l, ∀ b ∈ l, R a b → S a b) → l.Pairwise R → l.Pairwise S := by
  intro l
  induction l with
  | nil => intro _ _; exact List.Pairwise.nil
  | cons x xs ih =>
    intro hmem hp
    rcases List.pairwise_cons.mp hp with ⟨hx, hxs⟩
    refine List.pairwise_cons.mpr ⟨?_, ?_⟩
    · intro b hb
      exact hmem x (by simp) b (by simp [hb]) (hx b hb)
    · exact ih (fun a ha b hb => hmem a (by simp [ha]) b (by simp [hb])) hxs

theorem firstIdx_cons_self (x : String) (ys : List String) :
    firstIdx x (x :: ys) = 0 := by simp [firstIdx]

theorem firstIdx_cons_ne (x y : String) (ys : List String) (h : y ≠ x) :
    firstIdx x (y :: ys) = firstIdx x ys + 1 := by simp [firstIdx, h]

theorem dedup_spec :
    ∀ (ms seen cache : List String),
      (∀ e, e ∈ (dedupCacheAux seen cache ms).1 ↔ e ∈ ms ∧ e ∉ seen) ∧
      ((dedupCacheAux seen cache ms).1).Nodup ∧
      ((dedupCacheAux seen cache ms).1).Pairwise
        (fun a b => firstIdx a ms < firstIdx b ms) := by
  intro ms
  induction ms with
  | nil => intro seen cache; simp [dedupCacheAux]
  | cons e es ih =>
    intro seen cache
    by_cases he : e ∈ seen
    · have heq : dedupCacheAux seen cache (e :: es) = dedupCacheAux seen cache es := by
        simp [dedupCacheAux, he]
      rcases ih seen cache with ⟨hmem, hnd, hpw⟩
      rw [heq]
      refine ⟨?_, hnd, ?_⟩
      · intro x
        rw [hmem x]
        constructor
        · rintro ⟨hx, hs⟩; exact ⟨List.mem_cons_of_mem _ hx, hs⟩
        · rintro ⟨hx, hs⟩
          rcases List.mem_cons.mp hx with rfl | hx
          · exact absurd he hs
          · exact ⟨hx, hs⟩
      · refine pairwiseImpMem ?_ hpw
        intro a ha b hb hR
        have hane : e ≠ a := fun hh => ((hmem a).mp ha).2 (hh ▸ he)
        have hbne : e ≠ b := fun hh => ((hmem b).mp hb).2 (hh ▸ he)
        rw [firstIdx_cons_ne a e es hane, firstIdx_cons_ne b e es hbne]
        omega
    · have heq : (dedupCacheAux seen cache (e :: es)).1
          = e :: (dedupCacheAux (e :: seen) (setAdd cache e) es).1 := by
        rcases h2 : dedupCacheAux (e :: seen) (setAdd cache e) es with ⟨r, c2⟩
        simp [dedupCacheAux, he, h2]
      rcases ih (e :: seen) (setAdd cache e) with ⟨hmem, hnd, hpw⟩
      rw [heq]
      have hmem2 : ∀ x, x ∈ (dedupCacheAux (e :: seen) (setAdd cache e) es).1 → x ≠ e := by
        intro x hx hxe
        exact ((hmem x).mp hx).2 (hxe ▸ List.mem_cons_self e seen)
      refine ⟨?_, ?_, ?_⟩
      · intro x
        constructor
        · intro hx
          rcases List.mem_cons.mp hx with rfl | hx
          · exact ⟨List.mem_cons_self x es, he⟩
          · rcases (hmem x).mp hx with ⟨hx1, hx2⟩
            exact ⟨List.mem_cons_of_mem _ hx1,
              fun hs => hx2 (List.mem_cons_of_mem _ hs)⟩
        · rintro ⟨hx, hs⟩
          rcases List.mem_cons.mp hx with rfl | hx
          · exact List.mem_cons_self x _
          · by_cases hxe : x = e
            · subst hxe; exact List.mem_cons_self x _
            · exact List.mem_cons_of_mem _
                ((hmem x).mpr ⟨hx, by
                  intro hmm
                  rcases List.mem_cons.mp hmm with h | h
                  · exact hxe h
                  · exact hs h⟩)
      · refine List.nodup_cons.mpr ⟨?_, hnd⟩
        intro hmm
        exact hmem2 e hmm rfl
      · refine List.pairwise_cons.mpr ⟨?_, ?_⟩
        · intro b hb
          rw [firstIdx_cons_self, firstIdx_cons_ne b e es (fun hh => hmem2 b hb hh.symm)]
          omega
        · refine pairwiseImpMem ?_ hpw
          intro a ha b hb hR
          rw [firstIdx_cons_ne a e es (fun hh => hmem2 a ha hh.symm),
            firstIdx_cons_ne b e es (fun hh => hmem2 b hb hh.symm)]
          omega

/-! ## Lemmas about the type classifier -/

theorem classify_edu (e d : String) (h1 : extractDomain e = some d)
    (h2 : eduAny d = true) : classifyType e = "educational" := by
  simp only [classifyType, h1]
  have hne : ¬ d = "" := by
    rintro rfl
    exact absurd h2 (by decide)
  rw [if_neg hne]
  have hfree : ¬ d ∈ freeList := by
    intro hf
    have hd : d = "gmail.com" ∨ d = "yahoo.com" ∨ d = "hotmail.com" ∨ d = "outlook.com" ∨
        d = "aol.com" ∨ d = "icloud.com" ∨ d = "mail.com" ∨ d = "protonmail.com" ∨
        d = "yandex.com" ∨ d = "zoho.com" := by
      simpa [freeList] using hf
    rcases hd with rfl | rfl | rfl | rfl | rfl | rfl | rfl | rfl | rfl | rfl <;>
      exact absurd h2 (by decide)
  rw [if_neg hfree, if_pos h2]

theorem classify_multilabel (e d : String) (h1 : extractDomain e = some d)
    (h2 : 2 ≤ (splitOnChar '.' d.data).length) : classifyType e ≠ "other" := by
  simp only [classifyType, h1]
  have hne : ¬ d = "" := by
    rintro rfl
    exact absurd h2 (by decide)
  rw [if_neg hne]
  by_cases hf : d ∈ freeList
  · rw [if_pos hf]; decide
  · rw [if_neg hf]
    by_cases hedu : eduAny d = true
    · rw [if_pos hedu]; decide
    · rw [if_neg hedu]
      by_cases hgov : endsWithStr d ".gov" = true ∨ d = "gov.uk" ∨ endsWithStr d ".gov.uk" = true
      · rw [if_pos hgov]; decide
      · rw [if_neg hgov]
        have hbus : d ∈ businessList ∨ isBusinessDomain d = true := by
          right
          simp only [isBusinessDomain, Bool.and_eq_true, decide_eq_true_eq]
          exact ⟨h2, hf⟩
        rw [if_pos hbus]; decide

/-! ## Lemmas about the domain map -/

theorem addTo_inv (Q : String → String → Prop) :
    ∀ (m : CatMap) (k v : String),
      (∀ p ∈ m, ∀ x ∈ p.2, Q p.1 x) → Q k v →
      ∀ p ∈ addTo m k v, ∀ x ∈ p.2, Q p.1 x := by
  intro m
  induction m with
  | nil =>
    intro k v _ hkv p hp x hx
    simp only [addTo, List.mem_singleton] at hp
    subst hp
    simp only [List.mem_singleton] at hx
    subst hx
    exact hkv
  | cons q m ih =>
    intro k v hm hkv p hp x hx
    obtain ⟨k2, l⟩ := q
    by_cases h : k2 = k
    · simp only [addTo, if_pos h, List.mem_cons] at hp
      rcases hp with rfl | hp
      · simp only [List.mem_append, List.mem_singleton] at hx
        rcases hx with hx | rfl
        · exact hm (k2, l) (by simp) x hx
        · exact h ▸ hkv
      · exact hm p (by simp [hp]) x hx
    · simp only [addTo, if_neg h, List.mem_cons] at hp
      rcases hp with rfl | hp
      · exact hm (k2, l) (by simp) x hx
      · exact ih k v (fun p2 hp2 => hm p2 (by simp [hp2])) hkv p hp x hx

theorem domainAux_inv :
    ∀ (es : List String) (m : CatMap),
      (∀ p ∈ m, ∀ x ∈ p.2, extractDomain x = some p.1 ∧ p.1 ≠ "") →
      ∀ p ∈ domainAux es m, ∀ x ∈ p.2, extractDomain x = some p.1 ∧ p.1 ≠ "" := by
  intro es
  induction es with
  | nil => intro m hm; simpa [domainAux] using hm
  | cons e es ih =>
    intro m hm
    by_cases hk : domKeep e
    · have hq : extractDomain e = some ((extractDomain e).getD "") ∧
          (extractDomain e).getD "" ≠ "" := by
        revert hk
        unfold domKeep
        cases hde : extractDomain e with
        | none => simp
        | some d => simp
      simp only [domainAux, if_pos hk]
      exact ih _ (addTo_inv (fun k x => extractDomain x = some k ∧ k ≠ "") m
        ((extractDomain e).getD "") e hm hq)
    · simp only [domainAux, if_neg hk]
      exact ih m hm

theorem lookup_domainAux_mono :
    ∀ (es : List String) (m : CatMap) (k x : String),
      x ∈ lookupCat m k → x ∈ lookupCat (domainAux es m) k := by
  intro es
  induction es with
  | nil => intro m k x hx; simpa [domainAux] using hx
  | cons e es ih =>
    intro m k x hx
    by_cases hk : domKeep e
    · simp only [domainAux, if_pos hk]
      apply ih
      by_cases hkk : k = (extractDomain e).getD ""
      · subst hkk
        rw [lookup_addTo_self]
        exact List.mem_append_left _ hx
      · rwa [lookup_addTo_other _ _ _ _ hkk]
    · simp only [domainAux, if_neg hk]
      exact ih m k x hx

theorem domainAux_mem :
    ∀ (es : List String) (m : CatMap) (e d : String),
      e ∈ es → extractDomain e = some d → d ≠ "" →
      e ∈ lookupCat (domainAux es m) d := by
  intro es
  induction es with
  | nil => intro m e d he; exact absurd he (List.not_mem_nil e)
  | cons e2 es ih =>
    intro m e d he hdom hne
    rcases List.mem_cons.mp he with rfl | he
    · have hk : domKeep e = true := by
        unfold domKeep
        rw [hdom]
        simpa using hne
      simp only [domainAux, if_pos hk]
      apply lookup_domainAux_mono
      have hgd : (extractDomain e).getD "" = d := by rw [hdom]; rfl
      rw [hgd, lookup_addTo_self]
      exact List.mem_append_right _ (by simp)
    · by_cases hk : domKeep e2
      · simp only [domainAux, if_pos hk]
        exact ih _ e d he hdom hne
      · simp only [domainAux, if_neg hk]
        exact ih m e d he hdom hne

/-! ## Lemmas about span and the fullmatch tail -/

theorem spanB_append (p : Char → Bool) :
    ∀ l : List Char, (spanB p l).1 ++ (spanB p l).2 = l := by
  intro l
  induction l with
  | nil => rfl
  | cons c cs ih =>
    by_cases h : p c
    · rcases hs : spanB p cs with ⟨a, b⟩
      simp only [spanB, if_pos h, hs]
      rw [hs] at ih
      simpa using ih
    · simp [spanB, if_neg h]

theorem spanB_all (p : Char → Bool) :
    ∀ l : List Char, ∀ c ∈ (spanB p l).1, p c = true := by
  intro l
  induction l with
  | nil => intro c hc; exact absurd hc (List.not_mem_nil c)
  | cons c2 cs ih =>
    intro c hc
    by_cases h : p c2
    · rcases hs : spanB p cs with ⟨a, b⟩
      rw [hs] at ih
      simp only [spanB, if_pos h, hs, List.mem_cons] at hc
      rcases hc with rfl | hc
      · exact h
      · exact ih c hc
    · simp [spanB, if_neg h] at hc

theorem spanB_of_parts (p : Char → Bool) :
    ∀ (a b : List Char), (∀ c ∈ a, p c = true) →
      (∀ c cs, b = c :: cs → p c = false) →
      spanB p (a ++ b) = (a, b) := by
  intro a
  induction a with
  | nil =>
    intro b _ hb
    cases b with
    | nil => rfl
    | cons c cs =>
      have := hb c cs rfl
      simp [spanB, this]
  | cons x a ih =>
    intro b ha hb
    have hx : p x = true := ha x (by simp)
    have hrec := ih b (fun c hc => ha c (by simp [hc])) hb
    simp [spanB, hx, hrec]

theorem tailOK_sound :
    ∀ (rest : List Char) (seen : Bool), tailOK seen rest = true →
      ∃ d t : List Char, rest = d ++ '.' :: t ∧ (d = [] → seen = true) ∧
        (∀ c ∈ d, isDomainChar c = true) ∧ tldOK t = true := by
  intro rest
  induction rest with
  | nil => intro seen h; exact absurd h (by simp [tailOK])
  | cons c cs ih =>
    intro seen h
    simp only [tailOK, Bool.or_eq_true, Bool.and_eq_true] at h
    rcases h with ⟨⟨hdot, hseen⟩, htld⟩ | ⟨hdc, htail⟩
    · refine ⟨[], cs, ?_, fun _ => hseen, by simp, htld⟩
      have : c = '.' := by simpa using hdot
      rw [this]
      rfl
    · rcases ih true htail with ⟨d, t, heq, _, hd, ht⟩
      refine ⟨c :: d, t, by rw [heq]; rfl, by simp, ?_, ht⟩
      intro c2 hc2
      rcases List.mem_cons.mp hc2 with rfl | hc2
      · exact hdc
      · exact hd c2 hc2

theorem tailOK_complete :
    ∀ (d t : List Char) (seen : Bool), (d = [] → seen = true) →
      (∀ c ∈ d, isDomainChar c = true) → tldOK t = true →
      tailOK seen (d ++ '.' :: t) = true := by
  intro d
  induction d with
  | nil =>
    intro t seen hseen _ ht
    have : seen = true := hseen rfl
    subst this
    simp [tailOK, ht]
  | cons c d ih =>
    intro t seen _ hd ht
    have hc : isDomainChar c = true := hd c (by simp)
    have hrec := ih t true (fun _ => rfl) (fun c2 hc2 => hd c2 (by simp [hc2])) ht
    simp only [List.cons_append, tailOK, Bool.or_eq_true, Bool.and_eq_true]
    right
    exact ⟨hc, hrec⟩

/-- Helper for C10: whenever `categorize` returns a map normally, the new
state's `categorized` field is that map. -/
theorem engineCategorize_ok (st : EmailEngineState) (m : String) (kw : CatKwargs) (c : CatMap)
    (h : (engineCategorize st m kw).1 = Except.ok c) :
    (engineCategorize st m kw).2.categorized = c := by
  rcases hX : engineCategorize st m kw with ⟨r, st2⟩
  rw [hX] at h
  simp only at h ⊢
  unfold engineCategorize at hX
  repeat' split at hX
  all_goals (injection hX with h1 h2; subst h2; subst h1; simp_all)

/-! ## The claims -/

/-- Claim C1 (counterexample): the domain strategy omits `"a@"` even though it
contains an `'@'` — the part after the first `'@'` is empty, which is falsy in
`if domain:`.  So the exception clause "may omit only addresses containing no
`'@'`" is false as stated. -/
theorem c1_counterexample :
    catVals (categorize_by_domain ["a@"]) = [] ∧ '@' ∈ "a@".data := by decide

/-- Claim C1 (amended): for every input list, each of the type, keywords,
pattern and custom strategies returns a map whose multiset union of bucket
lists equals the input exactly; the domain strategy keeps exactly the
addresses whose segment after the first `'@'` (up to the next `'@'` or the
end) is nonempty, and omits the rest. -/
theorem c1_amended (es : List String) (kws : List (String × List String))
    (pats : List (String × (String → Bool)))
    (rules : List (String × (String → Option Bool))) :
    List.Perm (catVals (categorize_by_type es)) es ∧
    List.Perm (catVals (categorize_by_keywords es kws)) es ∧
    List.Perm (catVals (categorize_by_pattern es pats)) es ∧
    List.Perm (catVals (categorize_by_custom_rule es rules)) es ∧
    List.Perm (catVals (categorize_by_domain es)) (es.filter domKeep) := by
  refine ⟨?_, ?_, ?_, ?_, ?_⟩
  · simpa [initTypeMap, catVals] using bucketAux_perm classifyType es initTypeMap
  · simpa [catVals] using bucketAux_perm (keywordPick kws) es []
  · simpa [catVals] using bucketAux_perm (patternPick pats) es []
  · simpa [catVals] using bucketAux_perm (rulePick rules) es []
  · simpa [catVals] using domainAux_perm es []

/-- Claim C2 (counterexample): on the spec's end-to-end input, extraction does
return the three claimed addresses, but `company.com` is a literal member of
`BUSINESS_DOMAINS`, so the two company addresses land in `business` and the
`other` bucket is empty — contradicting the claim that they land in `other`. -/
theorem c2_counterexample :
    (extract_from_text false []
        "Contact sales@company.com or support@company.com or info@gmail.com").1
      = ["sales@company.com", "support@company.com", "info@gmail.com"] ∧
    lookupCat (categorize_by_type
        ["sales@company.com", "support@company.com", "info@gmail.com"]) "other" = [] ∧
    lookupCat (categorize_by_type
        ["sales@company.com", "support@company.com", "info@gmail.com"]) "business"
      = ["sales@company.com", "support@company.com"] := by decide

/-- Claim C2 (amended): extraction of the spec's input text yields the three
addresses in order, and type categorization places `info@gmail.com` in `free`
and both company addresses in `business` (empty `educational`, `government`
and `other` buckets). -/
theorem c2_amended :
    (extract_from_text false []
        "Contact sales@company.com or support@company.com or info@gmail.com").1
      = ["sales@company.com", "support@company.com", "info@gmail.com"] ∧
    categorize_by_type ["sales@company.com", "support@company.com", "info@gmail.com"]
      = [("free", ["info@gmail.com"]),
         ("business", ["sales@company.com", "support@company.com"]),
         ("educational", []), ("government", []), ("other", [])] := by decide

/-- Claim C3 (confirmed): every address whose extracted domain ends with an
educational suffix is put in `educational` and never in `business` by
`categorize_by_type` — the free-provider branch cannot fire first because no
free-provider domain ends with an educational suffix. -/
theorem c3_edu_precedence (es : List String) (e d : String) (hin : e ∈ es)
    (h1 : extractDomain e = some d) (h2 : eduAny d = true) :
    e ∈ lookupCat (categorize_by_type es) "educational" ∧
    e ∉ lookupCat (categorize_by_type es) "business" := by
  have hc := classify_edu e d h1 h2
  have hedu := type_lookup es "educational" (by decide)
  have hbus := type_lookup es "business" (by decide)
  constructor
  · rw [hedu]
    exact List.mem_filter.mpr ⟨hin, by rw [hc]; rfl⟩
  · rw [hbus]
    intro hmm
    have hb := (List.mem_filter.mp hmm).2
    rw [hc] at hb
    exact absurd hb (by decide)

/-- Claim C3 witness: `student@school.ac.uk` at a concrete input. -/
theorem c3_witness :
    "student@school.ac.uk"
        ∈ lookupCat (categorize_by_type ["student@school.ac.uk"]) "educational" ∧
    "student@school.ac.uk"
        ∉ lookupCat (categorize_by_type ["student@school.ac.uk"]) "business" :=
  c3_edu_precedence ["student@school.ac.uk"] "student@school.ac.uk" "school.ac.uk"
    (by decide) (by decide) (by decide)

/-- Claim C4 (confirmed): for every text and both case modes, the extraction
result has no duplicates, contains exactly the addresses of the match stream,
and lists them in strictly increasing order of first occurrence in the
left-to-right scan of the source text. -/
theorem c4_extract_nodup_order (ci : Bool) (cache : List String) (t : String) :
    ((extract_from_text ci cache t).1).Nodup ∧
    (∀ e, e ∈ (extract_from_text ci cache t).1 ↔ e ∈ matchStream ci t) ∧
    ((extract_from_text ci cache t).1).Pairwise
      (fun a b => firstIdx a (matchStream ci t) < firstIdx b (matchStream ci t)) := by
  by_cases ht : t = ""
  · subst ht
    have hms : matchStream ci "" = [] := by cases ci <;> rfl
    simp [extract_from_text, hms]
  · have hex : extract_from_text ci cache t = dedupCacheAux [] cache (matchStream ci t) := by
      simp [extract_from_text, ht]
    rcases dedup_spec (matchStream ci t) [] cache with ⟨hmem, hnd, hpw⟩
    rw [hex]
    exact ⟨hnd, fun e => by simpa using hmem e, hpw⟩

/-- Claim C4 witness: a duplicate-producing text at a concrete input. -/
theorem c4_witness :
    ((extract_from_text false [] "a@b.cd A@B.CD x@y.zz").1).Nodup :=
  (c4_extract_nodup_order false [] "a@b.cd A@B.CD x@y.zz").1

/-- Claim C5 (confirmed): with an empty last-extracted list, `categorize`
fails with the state error for every method and every options record, and the
returned state is exactly the input state. -/
theorem c5_categorize_state_error (st : EmailEngineState) (method : String)
    (kw : CatKwargs) (h : st.emails = []) :
    engineCategorize st method kw
      = (Except.error "No emails to categorize. Run extract() first.", st) := by
  unfold engineCategorize
  rw [if_pos h]

/-- Claim C5 witness: a fresh engine at a concrete method. -/
theorem c5_witness :
    engineCategorize ⟨false, [], [], []⟩ "type" ⟨none, none, none⟩
      = (Except.error "No emails to categorize. Run extract() first.",
         ⟨false, [], [], []⟩) :=
  c5_categorize_state_error ⟨false, [], [], []⟩ "type" ⟨none, none, none⟩ rfl

/-- Claim C6 (counterexample): `_extract_domain` is `split('@')[1]`, the
segment between the first and second `'@'` — for `"a@b@c"` the label is
`"b"`, not the claimed suffix `"b@c"`. -/
theorem c6_counterexample :
    categorize_by_domain ["a@b@c"] = [("b", ["a@b@c"])] ∧
    lookupCat (categorize_by_domain ["a@b@c"]) "b@c" = [] ∧
    ("b" : String) ≠ "b@c" := by decide

/-- Claim C6 (amended): every bucket of `categorize_by_domain` is labelled by
the lower-cased segment between the address's first `'@'` and the next `'@'`
(or the end), which is nonempty; every input address with such a nonempty
segment is in that bucket; and the map's addresses are exactly the kept
input addresses (as a multiset). -/
theorem c6_amended (es : List String) :
    (∀ p ∈ categorize_by_domain es, ∀ e ∈ p.2, extractDomain e = some p.1 ∧ p.1 ≠ "") ∧
    (∀ e d, e ∈ es → extractDomain e = some d → d ≠ "" →
      e ∈ lookupCat (categorize_by_domain es) d) ∧
    List.Perm (catVals (categorize_by_domain es)) (es.filter domKeep) := by
  refine ⟨?_, ?_, ?_⟩
  · exact domainAux_inv es [] (by simp)
  · intro e d he h1 h2
    exact domainAux_mem es [] e d he h1 h2
  · simpa [catVals] using domainAux_perm es []

/-- Claim C6 witness: a concrete address with a proper domain segment. -/
theorem c6_witness :
    extractDomain "a@b" = some "b" ∧
    "a@b" ∈ lookupCat (categorize_by_domain ["a@b"]) "b" :=
  ⟨by decide, (c6_amended ["a@b"]).2.1 "a@b" "b" (by decide) (by decide) (by decide)⟩

/-- Claim C7 (counterexample): `".a@b.cd"` fully matches the claim's bare
pattern, but `validate_email` rejects it — the compiled pattern's leading
`\b` requires the first character to be a word character. -/
theorem c7_counterexample :
    claimFullmatch ".a@b.cd" = true ∧ validate_email ".a@b.cd" = false := by decide

/-- Claim C7 (amended): `validate_email s` is true iff the whole of `s`
matches the source pattern `\b[A-Za-z0-9._%+-]+@[A-Za-z0-9.-]+\.[A-Z|a-z]{2,}\b`:
the bare-pattern decomposition with the final class widened to letters or
`'|'`, the first character a word character and the last character a letter. -/
theorem c7_amended (s : String) : validate_email s = true ↔ FullSpec s := by
  constructor
  · intro hv
    unfold validate_email at hv
    split at hv
    · next l loc rest heq =>
      simp only [Bool.and_eq_true] at hv
      obtain ⟨hw, ht⟩ := hv
      rcases tailOK_sound rest false ht with ⟨d, t, hrest, hde, hd, htld⟩
      have hsplit := spanB_append isLocalChar s.data
      rw [heq] at hsplit
      have hloc : ∀ c ∈ l :: loc, isLocalChar c = true := by
        intro c hc
        have hall := spanB_all isLocalChar s.data c
        rw [heq] at hall
        exact hall hc
      simp only [tldOK, Bool.and_eq_true, decide_eq_true_eq, List.all_eq_true] at htld
      refine ⟨l :: loc, d, t, ?_, by simp, hloc, by simpa using hw, ?_, hd,
        htld.1.1, htld.1.2, htld.2⟩
      · rw [← hsplit, hrest]
      · intro hdnil
        exact absurd (hde hdnil) (by decide)
    · next => exact absurd hv (by decide)
  · rintro ⟨l, d, t, hdata, hlnil, hlocal, hhead, hdnil, hdom, hlen, htld, hlast⟩
    unfold validate_email
    have hspan : spanB isLocalChar s.data = (l, '@' :: (d ++ '.' :: t)) := by
      rw [hdata]
      apply spanB_of_parts
      · exact hlocal
      · intro c cs hc
        have hc1 : c = '@' := by
          have := congrArg (fun x => x.headD ' ') hc
          simpa using this.symm
        rw [hc1]
        decide
    rw [hspan]
    cases l with
    | nil => exact absurd rfl hlnil
    | cons x l2 =>
      show (isWordChar x && tailOK false (d ++ '.' :: t)) = true
      have ht : tailOK false (d ++ '.' :: t) = true := by
        apply tailOK_complete d t false
        · intro hd0; exact absurd hd0 hdnil
        · exact hdom
        · simp only [tldOK, Bool.and_eq_true, decide_eq_true_eq, List.all_eq_true]
          exact ⟨⟨hlen, htld⟩, hlast⟩
      have hx : isWordChar x = true := by simpa using hhead
      simp [hx, ht]

/-- Claim C7 witness: a concrete valid address through the amended biconditional. -/
theorem c7_witness : FullSpec "a@b.cd" := (c7_amended "a@b.cd").mp (by decide)

/-- Claim C8 (confirmed): an address whose extracted domain has at least two
dot-separated labels is never put in `other`: if the free, educational and
government branches all fail, the business heuristic (two labels and not a
free provider) necessarily fires. -/
theorem c8_multilabel_not_other (es : List String) (e d : String)
    (h1 : extractDomain e = some d) (h2 : 2 ≤ (splitOnChar '.' d.data).length) :
    e ∉ lookupCat (categorize_by_type es) "other" := by
  have hc := classify_multilabel e d h1 h2
  have hoth := type_lookup es "other" (by decide)
  rw [hoth]
  intro hmm
  have hb := (List.mem_filter.mp hmm).2
  exact hc (by simpa using hb)

/-- Claim C8 witness: a two-label domain at a concrete input. -/
theorem c8_witness :
    "a@b.c" ∉ lookupCat (categorize_by_type ["a@b.c"]) "other" :=
  c8_multilabel_not_other ["a@b.c"] "a@b.c" "b.c" (by decide) (by decide)

/-- Claim C9 (confirmed): with a non-empty extracted list, passing an empty
keywords/patterns/rules mapping to `categorize` raises exactly the same
missing-argument error as omitting the option, for each of the three methods,
leaving the state unchanged — `if not keywords:` treats an empty dict as
missing. -/
theorem c9_empty_options (st : EmailEngineState)
    (kOpt : Option (List (String × List String)))
    (pOpt : Option (List (String × (String → Bool))))
    (rOpt : Option (List (String × (String → Option Bool))))
    (h : st.emails ≠ []) :
    (engineCategorize st "keywords" ⟨some [], pOpt, rOpt⟩
        = (Except.error "'keywords' argument required for keywords method", st) ∧
      engineCategorize st "keywords" ⟨none, pOpt, rOpt⟩
        = (Except.error "'keywords' argument required for keywords method", st)) ∧
    (engineCategorize st "pattern" ⟨kOpt, some [], rOpt⟩
        = (Except.error "'patterns' argument required for pattern method", st) ∧
      engineCategorize st "pattern" ⟨kOpt, none, rOpt⟩
        = (Except.error "'patterns' argument required for pattern method", st)) ∧
    (engineCategorize st "custom" ⟨kOpt, pOpt, some []⟩
        = (Except.error "'rules' argument required for custom method", st) ∧
      engineCategorize st "custom" ⟨kOpt, pOpt, none⟩
        = (Except.error "'rules' argument required for custom method", st)) := by
  refine ⟨⟨?_, ?_⟩, ⟨?_, ?_⟩, ⟨?_, ?_⟩⟩ <;>
    (unfold engineCategorize; rw [if_neg h]; rfl)

/-- Claim C9 witness: a concrete engine with one extracted address. -/
theorem c9_witness :
    engineCategorize ⟨false, ["x@y.zz"], [], []⟩ "keywords" ⟨some [], none, none⟩
      = (Except.error "'keywords' argument required for keywords method",
         ⟨false, ["x@y.zz"], [], []⟩) :=
  (c9_empty_options ⟨false, ["x@y.zz"], [], []⟩ none none none (by decide)).1.1

/-- Claim C10 (confirmed): a later text extraction replaces `emails` with the
new extraction result but leaves `categorized` holding the map computed by the
earlier categorize call. -/
theorem c10_extract_frame (st : EmailEngineState) (s1 m : String) (kw : CatKwargs)
    (c : CatMap) (s2 : String)
    (h : (engineCategorize (engineExtractText st s1).2 m kw).1 = Except.ok c) :
    (engineExtractText (engineCategorize (engineExtractText st s1).2 m kw).2 s2).2.categorized
        = c ∧
    (engineExtractText (engineCategorize (engineExtractText st s1).2 m kw).2 s2).2.emails
      = (extract_from_text
          ((engineCategorize (engineExtractText st s1).2 m kw).2).caseSensitive
          ((engineCategorize (engineExtractText st s1).2 m kw).2).cache s2).1 := by
  constructor
  · exact engineCategorize_ok (engineExtractText st s1).2 m kw c h
  · rfl

/-- Claim C10 witness: extract, categorize by type, extract again — the old
map survives the second extraction. -/
theorem c10_witness :
    (engineExtractText
        (engineCategorize (engineExtractText ⟨false, [], [], []⟩ "a@gmail.com").2
          "type" ⟨none, none, none⟩).2 "b@x.co").2.categorized
      = [("free", ["a@gmail.com"]), ("business", []), ("educational", []),
         ("government", []), ("other", [])] :=
  (c10_extract_frame ⟨false, [], [], []⟩ "a@gmail.com" "type" ⟨none, none, none⟩
    [("free", ["a@gmail.com"]), ("business", []), ("educational", []),
     ("government", []), ("other", [])] "b@x.co" (by rfl)).1

end EmailSpec
